import Mathlib

/-
  Verification of the globe-vis repository (Rust).

  The development shallowly embeds the repository's core code:
    * src/icosphere.rs   — icosphere mesh generation (vectors as real triples,
      f32 arithmetic modelled by exact real arithmetic, decimal literals
      denoting the corresponding rationals);
    * src/mouse.rs       — orbit-camera matrix math (glam Mat4/Quat modelled
      over Matrix (Fin 4) (Fin 4) ℝ with glam's published formulas);
    * src/gl_wrap.rs     — GPU resource lifecycle, modelled as a state machine
      recording created and deleted handles, with compile/link outcomes
      supplied as oracle booleans;
    * src/vis_gl.rs      — the interaction controller state machine;
    * src/globe.rs, src/points.rs — draw-call vertex counting.

  The file is organised as: all definitions first, then all theorems.
-/

set_option maxHeartbeats 1600000

namespace GlobeVis

/-! ## Definitions: vectors (src/icosphere.rs helpers) -/

/-- A vertex: three packed components, mirroring Rust [f32; 3]. -/
abbrev Vec3 : Type := ℝ × ℝ × ℝ

/-- A triangle: three indices into the vertex list, mirroring [usize; 3]. -/
abbrev Tri : Type := ℕ × ℕ × ℕ

/-- Dot product of two vertices (used for the geometric invariants). -/
def dot (u v : Vec3) : ℝ := u.1 * v.1 + u.2.1 * v.2.1 + u.2.2 * v.2.2

/-- Squared Euclidean norm. -/
def normSq (v : Vec3) : ℝ := dot v v

/-- Euclidean norm. -/
noncomputable def norm (v : Vec3) : ℝ := Real.sqrt (normSq v)

/-- Embeds fn normalize of src/icosphere.rs: compute the length, guard the
reciprocal against division by zero, scale each component. -/
noncomputable def normalize (v : Vec3) : Vec3 :=
  let len := Real.sqrt (v.1 * v.1 + v.2.1 * v.2.1 + v.2.2 * v.2.2)
  let inv_len := if len = 0 then 0 else 1 / len
  (v.1 * inv_len, v.2.1 * inv_len, v.2.2 * inv_len)

/-- Embeds fn midpoint of src/icosphere.rs. -/
def midpoint (a b : Vec3) : Vec3 :=
  ((a.1 + b.1) * 0.5, (a.2.1 + b.2.1) * 0.5, (a.2.2 + b.2.2) * 0.5)

/-- Rust indexing vert[i]; lists in this model are only ever indexed in
bounds, so the default never matters. -/
def vget (vert : List Vec3) (i : ℕ) : Vec3 := vert.getD i (0, 0, 0)

/-- Componentwise difference of vertices. -/
def vsub (u v : Vec3) : Vec3 := (u.1 - v.1, u.2.1 - v.2.1, u.2.2 - v.2.2)

/-- Cross product, used to express triangle winding. -/
def cross (u v : Vec3) : Vec3 :=
  (u.2.1 * v.2.2 - u.2.2 * v.2.1, u.2.2 * v.1 - u.1 * v.2.2, u.1 * v.2.1 - u.2.1 * v.1)

/-- Winding normal of a triangle given by corner positions p, q, r: the cross
product (q - p) x (r - p).  Two orderings of the same three positions have the
same winding exactly when their winding normals coincide. -/
def windingNormal (p q r : Vec3) : Vec3 := cross (vsub q p) (vsub r p)

/-- Cyclic rotation of an ordered position triangle (winding preserving). -/
def cyc (t : Vec3 × Vec3 × Vec3) : Vec3 × Vec3 × Vec3 := (t.2.1, t.2.2, t.1)

/-! ## Definitions: subdivision (src/icosphere.rs, subdivide_icosphere) -/

/-- The six vertices pushed for one input triangle: its three corner vertices
copied verbatim, then the three normalized edge midpoints (order as in the
source: mid01, mid12, mid20). -/
noncomputable def sixVerts (vert : List Vec3) (t : Tri) : List Vec3 :=
  [vget vert t.1, vget vert t.2.1, vget vert t.2.2,
   normalize (midpoint (vget vert t.1) (vget vert t.2.1)),
   normalize (midpoint (vget vert t.2.1) (vget vert t.2.2)),
   normalize (midpoint (vget vert t.2.2) (vget vert t.1))]

/-- The four triangles pushed for one input triangle, with curr_ind = c. -/
def fourTris (c : ℕ) : List Tri :=
  [(c, 3 + c, 5 + c), (3 + c, 1 + c, 4 + c), (4 + c, 2 + c, 5 + c), (3 + c, 4 + c, 5 + c)]

/-- One iteration of the for-loop body of subdivide_icosphere. -/
noncomputable def subStep (vert : List Vec3) (acc : List Vec3 × List Tri) (t : Tri) :
    List Vec3 × List Tri :=
  (acc.1 ++ sixVerts vert t, acc.2 ++ fourTris acc.1.length)

/-- Embeds fn subdivide_icosphere of src/icosphere.rs: fold the loop body over
the triangle list, starting from empty vertex/triangle accumulators. -/
noncomputable def subdivide_icosphere (vert : List Vec3) (tri : List Tri) :
    List Vec3 × List Tri :=
  tri.foldl (subStep vert) ([], [])

/-- Closed form of the vertex output of subdivide_icosphere. -/
noncomputable def flatSix (vert : List Vec3) : List Tri → List Vec3
  | [] => []
  | t :: rest => sixVerts vert t ++ flatSix vert rest

/-- Closed form of the triangle output of subdivide_icosphere: n groups of
four triangles, the k-th group using curr_ind = c + 6k. -/
def fourFrom (c : ℕ) : ℕ → List Tri
  | 0 => []
  | n + 1 => fourTris c ++ fourFrom (c + 6) n

/-! ## Definitions: base icosahedron and get_icosphere (src/icosphere.rs) -/

/-- Precalculated constant A of get_icosphere. -/
def A : ℝ := 0.5257311

/-- Precalculated constant B of get_icosphere. -/
def B : ℝ := 0.8506508

/-- The 12 base icosahedron vertices of get_icosphere. -/
noncomputable def baseVertices : List Vec3 :=
  [(-A, B, 0), (A, B, 0), (-A, -B, 0), (A, -B, 0),
   (0, -A, B), (0, A, B), (0, -A, -B), (0, A, -B),
   (B, 0, -A), (B, 0, A), (-B, 0, -A), (-B, 0, A)]

/-- The 20 base icosahedron faces of get_icosphere. -/
def baseTriangles : List Tri :=
  [(0, 11, 5), (0, 5, 1), (0, 1, 7), (0, 7, 10), (0, 10, 11),
   (1, 5, 9), (5, 11, 4), (11, 10, 2), (10, 7, 6), (7, 1, 8),
   (3, 9, 4), (3, 4, 2), (3, 2, 6), (3, 6, 8), (3, 8, 9),
   (4, 9, 5), (2, 4, 11), (6, 2, 10), (8, 6, 7), (9, 8, 1)]

/-- The vertex/triangle lists after n passes of the subdivision loop in
get_icosphere. -/
noncomputable def icoState : ℕ → List Vec3 × List Tri
  | 0 => (baseVertices, baseTriangles)
  | n + 1 => subdivide_icosphere (icoState n).1 (icoState n).2

/-- The buffer-building loop at the end of get_icosphere: for each triangle,
for each index, push the three components of vertices[ind]. -/
noncomputable def flatten (vert : List Vec3) : List Tri → List ℝ
  | [] => []
  | t :: rest =>
      [(vget vert t.1).1, (vget vert t.1).2.1, (vget vert t.1).2.2] ++
      [(vget vert t.2.1).1, (vget vert t.2.1).2.1, (vget vert t.2.1).2.2] ++
      [(vget vert t.2.2).1, (vget vert t.2.2).2.1, (vget vert t.2.2).2.2] ++
      flatten vert rest

/-- Embeds pub fn get_icosphere of src/icosphere.rs. -/
noncomputable def get_icosphere (iterations : ℕ) : List ℝ :=
  flatten (icoState iterations).1 (icoState iterations).2

/-- The corner positions referenced by a triangle list, in buffer order (the
flat buffer is exactly this list with each position expanded to 3 floats). -/
noncomputable def corners (vert : List Vec3) : List Tri → List Vec3
  | [] => []
  | t :: rest => [vget vert t.1, vget vert t.2.1, vget vert t.2.2] ++ corners vert rest

/-- The i-th (x, y, z) triple of a flat float buffer. -/
def tripleAt (buf : List ℝ) (i : ℕ) : Vec3 :=
  (buf.getD (3 * i) 0, buf.getD (3 * i + 1) 0, buf.getD (3 * i + 2) 0)

/-- Expansion of a list of positions into a flat component buffer. -/
def explode : List Vec3 → List ℝ
  | [] => []
  | v :: rest => v.1 :: v.2.1 :: v.2.2 :: explode rest

/-- Geometric invariant carried through the subdivision: each corner of a
triangle has squared norm within the 1e-6 band around 1, and the corners have
pairwise positive dot products (so no two of them are antipodal and no edge
midpoint can degenerate to the zero vector). -/
def goodTri (vert : List Vec3) (t : Tri) : Prop :=
  let a := vget vert t.1
  let b := vget vert t.2.1
  let c := vget vert t.2.2
  ((1 - 1e-6) ^ 2 ≤ normSq a ∧ normSq a ≤ (1 + 1e-6) ^ 2) ∧
  ((1 - 1e-6) ^ 2 ≤ normSq b ∧ normSq b ≤ (1 + 1e-6) ^ 2) ∧
  ((1 - 1e-6) ^ 2 ≤ normSq c ∧ normSq c ≤ (1 + 1e-6) ^ 2) ∧
  0 < dot a b ∧ 0 < dot b c ∧ 0 < dot c a

/-- All triangles of a vertex/triangle pair satisfy the geometric invariant. -/
def goodMesh (vert : List Vec3) (tri : List Tri) : Prop := ∀ t ∈ tri, goodTri vert t

/-- Every vertex slot below the given count is referenced by some triangle. -/
def allReferenced (vertLen : ℕ) (tri : List Tri) : Prop :=
  ∀ i < vertLen, ∃ t ∈ tri, t.1 = i ∨ t.2.1 = i ∨ t.2.2 = i

/-- The per-triangle contract of one subdivision pass (claim C4): exactly six
output vertices and four output triangles per input triangle; the six vertices
are the three verbatim corners followed by the three normalized edge midpoints;
the four emitted triangles resolve to the three corner triangles and the center
triangle, the third corner triangle being emitted as the cyclic rotation
(m12, v2, m20) of the specified (m20, m12, v2), with identical winding normal
(so the winding is never flipped). -/
noncomputable def subdivTriangleSpec (vert : List Vec3) (tri : List Tri) (k : ℕ) : Prop :=
  let t := tri.getD k (0, 0, 0)
  let a := vget vert t.1
  let b := vget vert t.2.1
  let c := vget vert t.2.2
  let m01 := normalize (midpoint a b)
  let m12 := normalize (midpoint b c)
  let m20 := normalize (midpoint c a)
  let out := subdivide_icosphere vert tri
  out.1.length = 6 * tri.length ∧
  out.2.length = 4 * tri.length ∧
  (out.1.drop (6 * k)).take 6 = [a, b, c, m01, m12, m20] ∧
  (out.2.drop (4 * k)).take 4 = fourTris (6 * k) ∧
  (fourTris (6 * k)).map (fun s => (vget out.1 s.1, vget out.1 s.2.1, vget out.1 s.2.2)) =
    [(a, m01, m20), (m01, b, m12), (m12, c, m20), (m01, m12, m20)] ∧
  (m12, c, m20) = cyc (m20, m12, c) ∧
  windingNormal m12 c m20 = windingNormal m20 m12 c

/-! ## Definitions: GPU resource lifecycle (src/gl_wrap.rs) -/

/-- Model of the GL context's handle bookkeeping: a fresh-id counter plus the
lists of created and deleted shader handles, and the same for program handles.
Compile and link outcomes are injected as oracle booleans standing for the
status the backend reports for the given sources. -/
structure GlCtx where
  nextShader : ℕ
  createdShaders : List ℕ
  deletedShaders : List ℕ
  nextProgram : ℕ
  createdPrograms : List ℕ
  deletedPrograms : List ℕ
deriving DecidableEq

/-- Errors of src/gl_wrap.rs relevant to the resource-lifecycle model. -/
inductive GlError where
  | compilation
  | linking
deriving DecidableEq

/-- Embeds Shader::new of src/gl_wrap.rs: create a shader handle, compile it,
and on compile failure return Err WITHOUT deleting the freshly created handle
(exactly as the source, whose failure path returns
Err(ShaderError::Compilation(log)) with no delete_shader call). -/
def shader_new (compileOk : Bool) (g : GlCtx) : GlCtx × Except GlError ℕ :=
  let id := g.nextShader
  let g1 := { g with
    nextShader := g.nextShader + 1
    createdShaders := g.createdShaders ++ [id] }
  if compileOk then (g1, Except.ok id) else (g1, Except.error GlError.compilation)

/-- Embeds Shader::drop of src/gl_wrap.rs (gl.delete_shader). -/
def shader_drop (id : ℕ) (g : GlCtx) : GlCtx :=
  { g with deletedShaders := g.deletedShaders ++ [id] }

/-- Embeds Program::new of src/gl_wrap.rs: create a program handle, attach the
two stages and link; on link failure return Err without deleting the program
handle (as the source). -/
def program_new (linkOk : Bool) (g : GlCtx) : GlCtx × Except GlError ℕ :=
  let id := g.nextProgram
  let g1 := { g with
    nextProgram := g.nextProgram + 1
    createdPrograms := g.createdPrograms ++ [id] }
  if linkOk then (g1, Except.ok id) else (g1, Except.error GlError.linking)

/-- Embeds Program::new_from_sources of src/gl_wrap.rs: compile the vertex
stage (the ? operator propagates a failure immediately), compile the fragment
stage (likewise), link via Program::new, then drop both stage handles, and
finally return the link result. -/
def new_from_sources (vertOk fragOk linkOk : Bool) (g : GlCtx) : GlCtx × Except GlError ℕ :=
  match shader_new vertOk g with
  | (g1, Except.error e) => (g1, Except.error e)
  | (g1, Except.ok vs) =>
    match shader_new fragOk g1 with
    | (g2, Except.error e) => (g2, Except.error e)
    | (g2, Except.ok fs) =>
      match program_new linkOk g2 with
      | (g3, result) =>
        let g4 := shader_drop vs g3
        let g5 := shader_drop fs g4
        (g5, result)

/-- A fresh GL context. -/
def glInit : GlCtx := ⟨0, [], [], 0, [], []⟩

/-! ## Definitions: buffer element-count tracking
    (src/gl_wrap.rs Buffer, src/globe.rs, src/points.rs) -/

/-- Model of gl_wrap.rs Buffer: the tracked element count len plus the
GL-side buffer store written by buffer_data_u8_slice (the draw-type hint does
not affect this state). -/
structure BufferSt where
  len : ℕ
  gpuData : List ℝ

/-- Embeds Buffer::new: a fresh buffer starts with len = 0 and no upload. -/
def buffer_new : BufferSt := ⟨0, []⟩

/-- Embeds Buffer::set_data: bind, record data.len(), upload the data. -/
def set_data (_ : BufferSt) (data : List ℝ) : BufferSt := ⟨data.length, data⟩

/-- Embeds the draw closure of Globe::get_draw:
gl.draw_arrays(TRIANGLES, 0, globe.buffer.len / 3). -/
def globe_draw_count (b : BufferSt) : ℕ := b.len / 3

/-- Embeds Points::draw: optionally re-upload the supplied data, then issue
gl.draw_arrays(POINTS, 0, self.buffer.len / 3) on the (possibly updated)
buffer; returns the updated buffer and the drawn vertex count. -/
def points_draw (b : BufferSt) (data : Option (List ℝ)) : BufferSt × ℕ :=
  match data with
  | some d =>
      let b2 := set_data b d
      (b2, b2.len / 3)
  | none => (b, b.len / 3)

/-- Embeds the buffer setup of Globe::new: Buffer::new then
buffer.set_data(gl, get_icosphere(4)). -/
noncomputable def globe_init_buffer : BufferSt := set_data buffer_new (get_icosphere 4)

/-! ## Definitions: camera math (src/mouse.rs over glam Mat4/Quat) -/

/-- A 4x4 real matrix, modelling glam Mat4 (f32 entries as exact reals). -/
abbrev Mat4 : Type := Matrix (Fin 4) (Fin 4) ℝ

/-- A quaternion, modelling glam Quat. -/
structure Quat where
  x : ℝ
  y : ℝ
  z : ℝ
  w : ℝ

/-- glam Quat::from_axis_angle: half-angle sine and cosine, vector part the
axis scaled by the sine (the axis is expected to be a unit vector). -/
noncomputable def fromAxisAngle (axis : Vec3) (angle : ℝ) : Quat :=
  ⟨axis.1 * Real.sin (angle * 0.5), axis.2.1 * Real.sin (angle * 0.5),
   axis.2.2 * Real.sin (angle * 0.5), Real.cos (angle * 0.5)⟩

/-- glam Mat4::from_quat: entry (i, j) is component i of glam's column j,
acting on column vectors. -/
noncomputable def fromQuat (q : Quat) : Mat4 :=
  !![1 - 2 * (q.y ^ 2 + q.z ^ 2), 2 * (q.x * q.y - q.w * q.z), 2 * (q.x * q.z + q.w * q.y), 0;
     2 * (q.x * q.y + q.w * q.z), 1 - 2 * (q.x ^ 2 + q.z ^ 2), 2 * (q.y * q.z - q.w * q.x), 0;
     2 * (q.x * q.z - q.w * q.y), 2 * (q.y * q.z + q.w * q.x), 1 - 2 * (q.x ^ 2 + q.y ^ 2), 0;
     0, 0, 0, 1]

/-- glam Mat4::transform_vector3: apply the 3x3 linear part (w treated as 0). -/
noncomputable def transformVector3 (m : Mat4) (v : Vec3) : Vec3 :=
  (m 0 0 * v.1 + m 0 1 * v.2.1 + m 0 2 * v.2.2,
   m 1 0 * v.1 + m 1 1 * v.2.1 + m 1 2 * v.2.2,
   m 2 0 * v.1 + m 2 1 * v.2.1 + m 2 2 * v.2.2)

/-- glam Mat4::inverse, modelled as matrix inversion; every matrix this code
inverts is invertible (the model matrix is a product of rotations), where the
cofactor formula glam uses coincides with the true inverse. -/
noncomputable def matInverse (m : Mat4) : Mat4 := m⁻¹

/-- ROT_SPEED of src/mouse.rs. -/
def ROT_SPEED : ℝ := 0.05

/-- ZOOM_SPEED of src/mouse.rs. -/
def ZOOM_SPEED : ℝ := 0.03

/-- Embeds pub fn rotate_from_mouse of src/mouse.rs: angles from the deltas,
rotation axes obtained by transforming the world X and Y axes through the
inverse of the current matrix, then right-multiply by the product of the two
axis-angle rotations. -/
noncomputable def rotate_from_mouse (mat : Mat4) (dx dy : ℝ) : Mat4 :=
  let x_rad := dy * ROT_SPEED
  let y_rad := dx * ROT_SPEED
  let inv_mat := matInverse mat
  let x_axis := transformVector3 inv_mat (1, 0, 0)
  let y_axis := transformVector3 inv_mat (0, 1, 0)
  let x_rot := fromQuat (fromAxisAngle x_axis x_rad)
  let y_rot := fromQuat (fromAxisAngle y_axis y_rad)
  mat * (x_rot * y_rot)

/-- glam Mat4::from_scale at a splat vector (uniform scale). -/
noncomputable def fromScale (s : ℝ) : Mat4 := !![s, 0, 0, 0; 0, s, 0, 0; 0, 0, s, 0; 0, 0, 0, 1]

/-- Embeds pub fn zoom_from_scroll of src/mouse.rs. -/
noncomputable def zoom_from_scroll (mat : Mat4) (delta : ℝ) : Mat4 :=
  mat * fromScale (1 + delta * ZOOM_SPEED)

/-- Closed-form rotation about the world X axis (the Rx of the spec; also
glam's Mat4::from_rotation_x). -/
noncomputable def rotX (t : ℝ) : Mat4 :=
  !![1, 0, 0, 0;
     0, Real.cos t, -Real.sin t, 0;
     0, Real.sin t, Real.cos t, 0;
     0, 0, 0, 1]

/-- Closed-form rotation about the world Y axis (the Ry of the spec; also
glam's Mat4::from_rotation_y). -/
noncomputable def rotY (t : ℝ) : Mat4 :=
  !![Real.cos t, 0, Real.sin t, 0;
     0, 1, 0, 0;
     -Real.sin t, 0, Real.cos t, 0;
     0, 0, 0, 1]

/-! ## Definitions: interaction controller (src/vis_gl.rs) -/

/-- Mouse buttons as in src/mouse.rs. -/
inductive MouseButton where
  | left
  | right
  | other

/-- The interaction-relevant state of VisGl: MouseState (x, y, dragging) plus
the three MvpMatrices uniform values (model, view, proj); pushing a matrix to
the programs is modelled by the stored uniform value itself. -/
structure VisState where
  x : ℝ
  y : ℝ
  dragging : Bool
  model : Mat4
  view : Mat4
  proj : Mat4

/-- Embeds VisGl::mouse_move of src/vis_gl.rs: while dragging, rotate the
model matrix by the deltas from the stored position and push it; in all cases
save the last mouse position. -/
noncomputable def mouse_move (s : VisState) (x y : ℝ) : VisState :=
  if s.dragging then
    { s with model := rotate_from_mouse s.model (x - s.x) (y - s.y), x := x, y := y }
  else
    { s with x := x, y := y }

/-- Embeds VisGl::mouse_wheel of src/vis_gl.rs: zoom the view matrix. -/
noncomputable def mouse_wheel (s : VisState) (delta : ℝ) : VisState :=
  { s with view := zoom_from_scroll s.view delta }

/-- Embeds VisGl::mouse_input of src/vis_gl.rs: the drag flag follows
left-button press state; other buttons are ignored. -/
def mouse_input (s : VisState) (b : MouseButton) (pressed : Bool) : VisState :=
  match b with
  | MouseButton.left => { s with dragging := pressed }
  | _ => s

/-- The externally delivered events relevant to the controller. -/
inductive Ev where
  | move (x y : ℝ)
  | button (b : MouseButton) (pressed : Bool)
  | wheel (delta : ℝ)

/-- One event dispatch. -/
noncomputable def step (s : VisState) : Ev → VisState
  | Ev.move x y => mouse_move s x y
  | Ev.button b p => mouse_input s b p
  | Ev.wheel d => mouse_wheel s d

/-- Run a whole event sequence. -/
noncomputable def run (s : VisState) (evs : List Ev) : VisState := evs.foldl step s

/-- Run a sequence of pointer-move events. -/
noncomputable def runMoves (s : VisState) (ms : List (ℝ × ℝ)) : VisState :=
  ms.foldl (fun s p => mouse_move s p.1 p.2) s

/-- glam Mat4::look_at_rh (through look_to_rh), with the same normalization
as the mesh normalize (the vectors involved are nonzero, where the zero guard
is irrelevant). -/
noncomputable def lookAtRh (eye center up : Vec3) : Mat4 :=
  let f := normalize (vsub center eye)
  let s := normalize (cross f up)
  let u := cross s f
  !![s.1, s.2.1, s.2.2, -(dot s eye);
     u.1, u.2.1, u.2.2, -(dot u eye);
     -f.1, -f.2.1, -f.2.2, dot f eye;
     0, 0, 0, 1]

/-- glam Mat4::perspective_rh_gl. -/
noncomputable def perspectiveRhGl (fovY aspect zNear zFar : ℝ) : Mat4 :=
  !![(1 / Real.tan (0.5 * fovY)) / aspect, 0, 0, 0;
     0, 1 / Real.tan (0.5 * fovY), 0, 0;
     0, 0, (zNear + zFar) * (1 / (zNear - zFar)), 2 * zNear * zFar * (1 / (zNear - zFar));
     0, 0, -1, 0]

/-- Embeds VisGl::new with MouseState::new and MvpMatrices::new_default:
mouse at (0, 0) not dragging, model = IDENTITY,
view = look_at_rh((0,0,2), ZERO, Y), proj = perspective_rh_gl(1.25, aspect,
0.1, 10). -/
noncomputable def initState (aspect : ℝ) : VisState :=
  ⟨0, 0, false, 1, lookAtRh (0, 0, 2) (0, 0, 0) (0, 1, 0),
    perspectiveRhGl 1.25 aspect 0.1 10⟩

/-- Rigid block form: orthogonal linear part, last row and column e4.  All
model matrices reachable in the controller have this form. -/
def IsRigid (m : Mat4) : Prop :=
  m * m.transpose = 1 ∧
  m 3 0 = 0 ∧ m 3 1 = 0 ∧ m 3 2 = 0 ∧ m 3 3 = 1 ∧
  m 0 3 = 0 ∧ m 1 3 = 0 ∧ m 2 3 = 0

/-! ## Theorems: subdivision structure -/

theorem length_sixVerts (vert : List Vec3) (t : Tri) : (sixVerts vert t).length = 6 := rfl

theorem length_fourTris (c : ℕ) : (fourTris c).length = 4 := rfl

theorem length_flatSix (vert : List Vec3) :
    ∀ tri : List Tri, (flatSix vert tri).length = 6 * tri.length := by
  intro tri
  induction tri with
  | nil => simp [flatSix]
  | cons t rest ih => simp [flatSix, ih, length_sixVerts]; ring

theorem length_fourFrom : ∀ (n c : ℕ), (fourFrom c n).length = 4 * n := by
  intro n
  induction n with
  | zero => intro c; simp [fourFrom]
  | succ m ih => intro c; simp [fourFrom, ih, length_fourTris]; ring

theorem subdivide_foldl (vert : List Vec3) :
    ∀ (tri : List Tri) (vs : List Vec3) (ts : List Tri),
      tri.foldl (subStep vert) (vs, ts) =
        (vs ++ flatSix vert tri, ts ++ fourFrom vs.length tri.length) := by
  intro tri
  induction tri with
  | nil => intro vs ts; simp [flatSix, fourFrom]
  | cons t rest ih =>
      intro vs ts
      simp only [List.foldl_cons, subStep, ih, flatSix, fourFrom, List.length_cons]
      rw [List.length_append, length_sixVerts]
      simp [List.append_assoc]

/-- Characterization: subdivide_icosphere computes flatSix and fourFrom. -/
theorem subdivide_eq (vert : List Vec3) (tri : List Tri) :
    subdivide_icosphere vert tri = (flatSix vert tri, fourFrom 0 tri.length) := by
  unfold subdivide_icosphere
  rw [subdivide_foldl]
  simp

theorem flatSix_drop (vert : List Vec3) :
    ∀ (tri : List Tri) (k : ℕ), (flatSix vert tri).drop (6 * k) = flatSix vert (tri.drop k) := by
  intro tri
  induction tri with
  | nil => intro k; simp [flatSix]
  | cons t rest ih =>
      intro k
      cases k with
      | zero => simp
      | succ m =>
          have h6 : 6 * (m + 1) = 6 + 6 * m := by ring
          simp only [flatSix, h6, List.drop_succ_cons]
          rw [List.drop_append_eq_append_drop]
          simp [length_sixVerts, ih]

theorem fourFrom_drop :
    ∀ (n c k : ℕ), (fourFrom c n).drop (4 * k) = fourFrom (c + 6 * k) (n - k) := by
  intro n
  induction n with
  | zero => intro c k; simp [fourFrom]
  | succ m ih =>
      intro c k
      cases k with
      | zero => simp [fourFrom]
      | succ j =>
          have h4 : 4 * (j + 1) = 4 + 4 * j := by ring
          simp only [fourFrom, h4]
          rw [List.drop_append_eq_append_drop]
          have hnil : (fourTris c).drop (4 + 4 * j) = [] := by
            apply List.drop_eq_nil_of_le
            rw [length_fourTris]; omega
          rw [hnil, length_fourTris]
          have h1 : 4 + 4 * j - 4 = 4 * j := by omega
          rw [h1, ih]
          have h2 : c + 6 + 6 * j = c + 6 * (j + 1) := by ring
          rw [h2]
          simp [Nat.succ_sub_succ]

theorem flatSix_getD (vert : List Vec3) :
    ∀ (tri : List Tri) (k r : ℕ), k < tri.length → r < 6 →
      vget (flatSix vert tri) (6 * k + r) =
        (sixVerts vert (tri.getD k (0, 0, 0))).getD r (0, 0, 0) := by
  intro tri
  induction tri with
  | nil => intro k r hk _; simp at hk
  | cons t rest ih =>
      intro k r hk hr
      cases k with
      | zero =>
          simp only [flatSix, Nat.mul_zero, Nat.zero_add, List.getD_cons_zero, vget]
          exact List.getD_append _ _ _ _ (by rw [length_sixVerts]; exact hr)
      | succ m =>
          have h6 : 6 * (m + 1) + r = 6 + (6 * m + r) := by ring
          simp only [flatSix, h6, List.getD_cons_succ, vget]
          rw [List.getD_append_right _ _ _ _ (by rw [length_sixVerts]; omega)]
          rw [length_sixVerts]
          have h7 : 6 + (6 * m + r) - 6 = 6 * m + r := by omega
          rw [h7]
          exact ih m r (by simpa using hk) hr

theorem mem_flatSix (vert : List Vec3) :
    ∀ (tri : List Tri) (v : Vec3),
      v ∈ flatSix vert tri ↔ ∃ t ∈ tri, v ∈ sixVerts vert t := by
  intro tri v
  induction tri with
  | nil => simp [flatSix]
  | cons t rest ih => simp [flatSix, ih, List.mem_append]

theorem mem_fourFrom :
    ∀ (n c k : ℕ), k < n → ∀ s ∈ fourTris (c + 6 * k), s ∈ fourFrom c n := by
  intro n
  induction n with
  | zero => intro c k hk; omega
  | succ m ih =>
      intro c k hk s hs
      cases k with
      | zero =>
          simp only [fourFrom, List.mem_append]
          left
          simpa using hs
      | succ j =>
          simp only [fourFrom, List.mem_append]
          right
          have : c + 6 * (j + 1) = (c + 6) + 6 * j := by ring
          exact ih (c + 6) j (by omega) s (by rwa [this] at hs)

/-! ## Theorems: C1 (buffer size) -/

theorem length_flatten (vert : List Vec3) :
    ∀ tri : List Tri, (flatten vert tri).length = 9 * tri.length := by
  intro tri
  induction tri with
  | nil => simp [flatten]
  | cons t rest ih => simp [flatten, ih]; ring

theorem length_icoTris : ∀ n : ℕ, (icoState n).2.length = 20 * 4 ^ n := by
  intro n
  induction n with
  | zero => rfl
  | succ m ih =>
      show (subdivide_icosphere (icoState m).1 (icoState m).2).2.length = _
      rw [subdivide_eq]
      simp only [length_fourFrom, ih]
      ring

theorem length_get_icosphere (n : ℕ) : (get_icosphere n).length = 3 * 3 * 20 * 4 ^ n := by
  unfold get_icosphere
  rw [length_flatten, length_icoTris]
  ring

/-- C1: For every non-negative iteration count n, get_icosphere n returns a
flat float buffer describing exactly 20 * 4^n triangles, i.e. exactly
3 * 3 * 20 * 4^n floats; get_icosphere 0 is the flattening of the unmodified
20-face base icosahedron (180 floats). -/
theorem c1_buffer_size (n : ℕ) :
    (get_icosphere n).length = 3 * 3 * 20 * 4 ^ n ∧
    (icoState n).2.length = 20 * 4 ^ n ∧
    get_icosphere 0 = flatten baseVertices baseTriangles ∧
    (get_icosphere 0).length = 180 := by
  refine ⟨length_get_icosphere n, length_icoTris n, rfl, ?_⟩
  rw [length_get_icosphere]
  norm_num

/-! ## Theorems: C4 (per-triangle subdivision contract) -/

theorem winding_cyc (p q r : Vec3) : windingNormal q r p = windingNormal p q r := by
  simp only [windingNormal, cross, vsub, Prod.mk.injEq]
  refine ⟨by ring, ⟨by ring, by ring⟩⟩

/-- C4: one subdivision pass maps each input triangle to exactly 6 output
vertices and 4 output triangles with the corner/center structure of the spec;
the third corner triangle is emitted as the winding-preserving cyclic rotation
(mid12, v2, mid20) of (mid20, mid12, v2), so subdivision never flips winding. -/
theorem c4_subdivision_pass (vert : List Vec3) (tri : List Tri) (k : ℕ)
    (hk : k < tri.length) : subdivTriangleSpec vert tri k := by
  simp only [subdivTriangleSpec]
  have hg : ∀ r, r < 6 →
      vget (subdivide_icosphere vert tri).1 (6 * k + r) =
        (sixVerts vert (tri.getD k (0, 0, 0))).getD r (0, 0, 0) := by
    intro r hr
    rw [subdivide_eq]
    exact flatSix_getD vert tri k r hk hr
  have v0 : vget (subdivide_icosphere vert tri).1 (6 * k) =
      vget vert (tri.getD k (0, 0, 0)).1 := by
    have h := hg 0 (by omega); simpa [sixVerts] using h
  have v1 : vget (subdivide_icosphere vert tri).1 (1 + 6 * k) =
      vget vert (tri.getD k (0, 0, 0)).2.1 := by
    have h := hg 1 (by omega); rw [show 6 * k + 1 = 1 + 6 * k by ring] at h
    simpa [sixVerts] using h
  have v2 : vget (subdivide_icosphere vert tri).1 (2 + 6 * k) =
      vget vert (tri.getD k (0, 0, 0)).2.2 := by
    have h := hg 2 (by omega); rw [show 6 * k + 2 = 2 + 6 * k by ring] at h
    simpa [sixVerts] using h
  have v3 : vget (subdivide_icosphere vert tri).1 (3 + 6 * k) =
      normalize (midpoint (vget vert (tri.getD k (0, 0, 0)).1)
        (vget vert (tri.getD k (0, 0, 0)).2.1)) := by
    have h := hg 3 (by omega); rw [show 6 * k + 3 = 3 + 6 * k by ring] at h
    simpa [sixVerts] using h
  have v4 : vget (subdivide_icosphere vert tri).1 (4 + 6 * k) =
      normalize (midpoint (vget vert (tri.getD k (0, 0, 0)).2.1)
        (vget vert (tri.getD k (0, 0, 0)).2.2)) := by
    have h := hg 4 (by omega); rw [show 6 * k + 4 = 4 + 6 * k by ring] at h
    simpa [sixVerts] using h
  have v5 : vget (subdivide_icosphere vert tri).1 (5 + 6 * k) =
      normalize (midpoint (vget vert (tri.getD k (0, 0, 0)).2.2)
        (vget vert (tri.getD k (0, 0, 0)).1)) := by
    have h := hg 5 (by omega); rw [show 6 * k + 5 = 5 + 6 * k by ring] at h
    simpa [sixVerts] using h
  refine ⟨?_, ?_, ?_, ?_, ?_, rfl, winding_cyc _ _ _⟩
  · rw [subdivide_eq]; simp [length_flatSix]
  · rw [subdivide_eq]; simp [length_fourFrom]
  · rw [subdivide_eq]
    show ((flatSix vert tri).drop (6 * k)).take 6 = _
    rw [flatSix_drop, List.drop_eq_getElem_cons hk, ← List.getD_eq_getElem tri (0, 0, 0) hk]
    show (sixVerts vert (tri.getD k (0, 0, 0)) ++ flatSix vert (tri.drop (k + 1))).take 6 = _
    rw [List.take_left' (length_sixVerts vert (tri.getD k (0, 0, 0)))]
    rfl
  · rw [subdivide_eq]
    show ((fourFrom 0 tri.length).drop (4 * k)).take 4 = _
    rw [fourFrom_drop]
    have hlen : tri.length - k = (tri.length - k - 1) + 1 := by omega
    rw [hlen]
    show (fourTris (0 + 6 * k) ++ fourFrom (0 + 6 * k + 6) (tri.length - k - 1)).take 4 = _
    rw [List.take_left' (length_fourTris (0 + 6 * k))]
    norm_num
  · simp only [fourTris, List.map_cons, List.map_nil]
    rw [v0, v1, v2, v3, v4, v5]

/-- Witness for C4 at the base icosahedron's first triangle. -/
theorem c4_subdivision_pass_witness : subdivTriangleSpec baseVertices baseTriangles 0 :=
  c4_subdivision_pass baseVertices baseTriangles 0 (by simp [baseTriangles])

/-! ## Theorems: C5 (normalize zero guard) -/

theorem normSq_nonneg (v : Vec3) : 0 ≤ normSq v := by
  have h : normSq v = v.1 ^ 2 + v.2.1 ^ 2 + v.2.2 ^ 2 := by unfold normSq dot; ring
  rw [h]; positivity

/-- C5: normalize is total and guarded against division by zero: it maps the
zero vector to the zero vector (the reciprocal branch is skipped when the
length is zero), and any vector of nonzero norm to the vector scaled by the
reciprocal of its norm. -/
theorem c5_normalize_guard :
    normalize ((0 : ℝ), (0 : ℝ), (0 : ℝ)) = ((0 : ℝ), (0 : ℝ), (0 : ℝ)) ∧
    ∀ v : Vec3, norm v ≠ 0 →
      normalize v = (v.1 * (1 / norm v), v.2.1 * (1 / norm v), v.2.2 * (1 / norm v)) := by
  constructor
  · simp only [normalize]
    norm_num
  · intro v hv
    simp only [normalize]
    rw [show Real.sqrt (v.1 * v.1 + v.2.1 * v.2.1 + v.2.2 * v.2.2) = norm v from rfl,
      if_neg hv]

/-- Witness for C5 at the vector (3, 0, 4) (norm 5). -/
theorem c5_normalize_guard_witness :
    norm ((3 : ℝ), (0 : ℝ), (4 : ℝ)) ≠ 0 ∧
    normalize ((3 : ℝ), (0 : ℝ), (4 : ℝ)) =
      ((3 : ℝ) * (1 / norm ((3 : ℝ), (0 : ℝ), (4 : ℝ))),
       (0 : ℝ) * (1 / norm ((3 : ℝ), (0 : ℝ), (4 : ℝ))),
       (4 : ℝ) * (1 / norm ((3 : ℝ), (0 : ℝ), (4 : ℝ)))) := by
  have hns : normSq ((3 : ℝ), (0 : ℝ), (4 : ℝ)) = 25 := by unfold normSq dot; norm_num
  have h5 : norm ((3 : ℝ), (0 : ℝ), (4 : ℝ)) = 5 := by
    unfold norm
    rw [hns, show (25 : ℝ) = 5 ^ 2 by norm_num]
    exact Real.sqrt_sq (by norm_num)
  have hne : norm ((3 : ℝ), (0 : ℝ), (4 : ℝ)) ≠ 0 := by rw [h5]; norm_num
  exact ⟨hne, c5_normalize_guard.2 _ hne⟩

/-! ## Theorems: C10 (subdivision never modifies existing geometry) -/

theorem fourTris_covers (c r : ℕ) (hr : r < 6) :
    ∃ s ∈ fourTris c, s.1 = c + r ∨ s.2.1 = c + r ∨ s.2.2 = c + r := by
  interval_cases r
  · exact ⟨(c, 3 + c, 5 + c), by simp [fourTris], Or.inl (show c = c + 0 by omega)⟩
  · exact ⟨(3 + c, 1 + c, 4 + c), by simp [fourTris],
      Or.inr (Or.inl (show 1 + c = c + 1 by omega))⟩
  · exact ⟨(4 + c, 2 + c, 5 + c), by simp [fourTris],
      Or.inr (Or.inl (show 2 + c = c + 2 by omega))⟩
  · exact ⟨(c, 3 + c, 5 + c), by simp [fourTris],
      Or.inr (Or.inl (show 3 + c = c + 3 by omega))⟩
  · exact ⟨(3 + c, 1 + c, 4 + c), by simp [fourTris],
      Or.inr (Or.inr (show 4 + c = c + 4 by omega))⟩
  · exact ⟨(c, 3 + c, 5 + c), by simp [fourTris],
      Or.inr (Or.inr (show 5 + c = c + 5 by omega))⟩

theorem refs_preserved (tri : List Tri) :
    allReferenced (6 * tri.length) (fourFrom 0 tri.length) := by
  intro i hi
  have hk : i / 6 < tri.length := by omega
  have hr : i % 6 < 6 := Nat.mod_lt _ (by norm_num)
  obtain ⟨s, hs, hcomp⟩ := fourTris_covers (6 * (i / 6)) (i % 6) hr
  rw [Nat.div_add_mod i 6] at hcomp
  exact ⟨s, mem_fourFrom tri.length 0 (i / 6) hk s (by simpa using hs), hcomp⟩

theorem mem_subdivide_of_referenced (vert : List Vec3) (tri : List Tri)
    (href : allReferenced vert.length tri) :
    ∀ v ∈ vert, v ∈ (subdivide_icosphere vert tri).1 := by
  intro v hv
  obtain ⟨i, hi, hvi⟩ := List.mem_iff_getElem.mp hv
  obtain ⟨t, ht, hcomp⟩ := href i hi
  rw [subdivide_eq]
  show v ∈ flatSix vert tri
  rw [mem_flatSix]
  refine ⟨t, ht, ?_⟩
  have hvget : vget vert i = v := by rw [vget, List.getD_eq_getElem _ _ hi, hvi]
  rcases hcomp with h | h | h <;> rw [← hvget, ← h] <;> simp [sixVerts]

theorem icoState_referenced : ∀ n, allReferenced (icoState n).1.length (icoState n).2 := by
  intro n
  cases n with
  | zero =>
      show allReferenced baseVertices.length baseTriangles
      have h12 : baseVertices.length = 12 := rfl
      rw [h12]
      unfold allReferenced
      decide
  | succ m =>
      show allReferenced (subdivide_icosphere (icoState m).1 (icoState m).2).1.length
        (subdivide_icosphere (icoState m).1 (icoState m).2).2
      rw [subdivide_eq]
      show allReferenced (flatSix (icoState m).1 (icoState m).2).length
        (fourFrom 0 (icoState m).2.length)
      rw [length_flatSix]
      exact refs_preserved _

/-- C10: a subdivision pass never modifies existing geometry: each input
triangle's three corner coordinates are copied verbatim into the output
(positions 6k, 6k+1, 6k+2 of the k-th output group); every output vertex is
either such a verbatim corner copy or one of the three freshly computed
normalized midpoints of its group; consequently every vertex present at
iteration n of get_icosphere's loop persists unchanged at iteration n+1. -/
theorem c10_subdivision_preserves_vertices :
    (∀ (vert : List Vec3) (tri : List Tri) (k : ℕ), k < tri.length →
      ((subdivide_icosphere vert tri).1.drop (6 * k)).take 3 =
        [vget vert (tri.getD k (0, 0, 0)).1,
         vget vert (tri.getD k (0, 0, 0)).2.1,
         vget vert (tri.getD k (0, 0, 0)).2.2]) ∧
    (∀ (vert : List Vec3) (tri : List Tri) (v : Vec3),
      v ∈ (subdivide_icosphere vert tri).1 → ∃ t ∈ tri, v ∈ sixVerts vert t) ∧
    (∀ n : ℕ, ∀ v ∈ (icoState n).1, v ∈ (icoState (n + 1)).1) := by
  refine ⟨?_, ?_, ?_⟩
  · intro vert tri k hk
    rw [subdivide_eq]
    show ((flatSix vert tri).drop (6 * k)).take 3 = _
    rw [flatSix_drop, List.drop_eq_getElem_cons hk, ← List.getD_eq_getElem tri (0, 0, 0) hk]
    show (sixVerts vert (tri.getD k (0, 0, 0)) ++ flatSix vert (tri.drop (k + 1))).take 3 = _
    rfl
  · intro vert tri v hv
    rw [subdivide_eq] at hv
    exact (mem_flatSix vert tri v).mp hv
  · intro n v hv
    show v ∈ (subdivide_icosphere (icoState n).1 (icoState n).2).1
    exact mem_subdivide_of_referenced _ _ (icoState_referenced n) v hv

/-- Witness for C10: the first base triangle's corners are copied verbatim by
the first pass, and the first base vertex persists into iteration 1. -/
theorem c10_subdivision_preserves_vertices_witness :
    ((subdivide_icosphere baseVertices baseTriangles).1.drop 0).take 3 =
      [vget baseVertices 0, vget baseVertices 11, vget baseVertices 5] ∧
    (-A, B, (0 : ℝ)) ∈ (icoState 1).1 := by
  constructor
  · have h := c10_subdivision_preserves_vertices.1 baseVertices baseTriangles 0
      (by simp [baseTriangles])
    simpa [baseTriangles] using h
  · refine c10_subdivision_preserves_vertices.2.2 0 _ ?_
    show (-A, B, (0 : ℝ)) ∈ baseVertices
    exact List.mem_cons_self _ _

/-! ## Theorems: C2 (unit norm invariant) — dot product algebra -/

theorem dot_comm (u v : Vec3) : dot u v = dot v u := by unfold dot; ring

theorem dot_mid_left (a b w : Vec3) : dot (midpoint a b) w = (dot a w + dot b w) / 2 := by
  unfold dot midpoint; ring

theorem dot_mid_right (w a b : Vec3) : dot w (midpoint a b) = (dot w a + dot w b) / 2 := by
  unfold dot midpoint; ring

theorem normSq_midpoint (a b : Vec3) :
    normSq (midpoint a b) = (normSq a + 2 * dot a b + normSq b) / 4 := by
  unfold normSq dot midpoint; ring

theorem sqrt_normSq_pos (v : Vec3) (h : 0 < normSq v) : 0 < Real.sqrt (normSq v) :=
  Real.sqrt_pos.mpr h

theorem normalize_eq_scale (v : Vec3) (h : 0 < normSq v) :
    normalize v = (v.1 * (1 / Real.sqrt (normSq v)), v.2.1 * (1 / Real.sqrt (normSq v)),
      v.2.2 * (1 / Real.sqrt (normSq v))) := by
  simp only [normalize,
    show Real.sqrt (v.1 * v.1 + v.2.1 * v.2.1 + v.2.2 * v.2.2) = Real.sqrt (normSq v) from rfl,
    if_neg (ne_of_gt (sqrt_normSq_pos v h))]

theorem dot_normalize_left (v w : Vec3) (h : 0 < normSq v) :
    dot (normalize v) w = (1 / Real.sqrt (normSq v)) * dot v w := by
  rw [normalize_eq_scale v h]; unfold dot; ring

theorem dot_normalize_pos_left (v w : Vec3) (h : 0 < normSq v) (hw : 0 < dot v w) :
    0 < dot (normalize v) w := by
  rw [dot_normalize_left v w h]
  exact mul_pos (div_pos one_pos (sqrt_normSq_pos v h)) hw

theorem dot_normalize_pos_right (w v : Vec3) (h : 0 < normSq v) (hw : 0 < dot w v) :
    0 < dot w (normalize v) := by
  rw [dot_comm]
  exact dot_normalize_pos_left v w h (by rwa [dot_comm])

theorem dot_normalize_pos_both (u v : Vec3) (hu : 0 < normSq u) (hv : 0 < normSq v)
    (h : 0 < dot u v) : 0 < dot (normalize u) (normalize v) :=
  dot_normalize_pos_left u _ hu (dot_normalize_pos_right u v hv h)

theorem normSq_normalize (v : Vec3) (h : 0 < normSq v) : normSq (normalize v) = 1 := by
  have hLpos := sqrt_normSq_pos v h
  have h1 : dot (normalize v) (normalize v) =
      (1 / Real.sqrt (normSq v)) * ((1 / Real.sqrt (normSq v)) * dot v v) := by
    rw [dot_normalize_left v _ h, dot_comm v (normalize v), dot_normalize_left v v h]
  show dot (normalize v) (normalize v) = 1
  rw [h1, show dot v v = normSq v from rfl]
  rw [show (1 / Real.sqrt (normSq v)) * ((1 / Real.sqrt (normSq v)) * normSq v)
      = normSq v / (Real.sqrt (normSq v) * Real.sqrt (normSq v)) by ring]
  rw [Real.mul_self_sqrt h.le]
  exact div_self (ne_of_gt h)

theorem norm_band (v : Vec3) (h1 : ((1 : ℝ) - 1e-6) ^ 2 ≤ normSq v)
    (h2 : normSq v ≤ ((1 : ℝ) + 1e-6) ^ 2) : |norm v - 1| ≤ 1e-6 := by
  have hlow : ((1 : ℝ) - 1e-6) ≤ norm v := by
    show ((1 : ℝ) - 1e-6) ≤ Real.sqrt (normSq v)
    rw [show ((1 : ℝ) - 1e-6) = Real.sqrt (((1 : ℝ) - 1e-6) ^ 2) from
      (Real.sqrt_sq (by norm_num)).symm]
    exact Real.sqrt_le_sqrt h1
  have hhigh : norm v ≤ ((1 : ℝ) + 1e-6) := by
    show Real.sqrt (normSq v) ≤ ((1 : ℝ) + 1e-6)
    rw [show ((1 : ℝ) + 1e-6) = Real.sqrt (((1 : ℝ) + 1e-6) ^ 2) from
      (Real.sqrt_sq (by norm_num)).symm]
    exact Real.sqrt_le_sqrt h2
  rw [abs_le]
  constructor <;> linarith

/-! ## Theorems: C2 — locating the subdivided vertices -/

theorem flat_vget0 (vert : List Vec3) (tri : List Tri) (k : ℕ) (hk : k < tri.length) :
    vget (flatSix vert tri) (6 * k) = vget vert (tri.getD k (0, 0, 0)).1 := by
  have h := flatSix_getD vert tri k 0 hk (by omega)
  simpa [sixVerts] using h

theorem flat_vget1 (vert : List Vec3) (tri : List Tri) (k : ℕ) (hk : k < tri.length) :
    vget (flatSix vert tri) (1 + 6 * k) = vget vert (tri.getD k (0, 0, 0)).2.1 := by
  have h := flatSix_getD vert tri k 1 hk (by omega)
  rw [show 6 * k + 1 = 1 + 6 * k by ring] at h
  simpa [sixVerts] using h

theorem flat_vget2 (vert : List Vec3) (tri : List Tri) (k : ℕ) (hk : k < tri.length) :
    vget (flatSix vert tri) (2 + 6 * k) = vget vert (tri.getD k (0, 0, 0)).2.2 := by
  have h := flatSix_getD vert tri k 2 hk (by omega)
  rw [show 6 * k + 2 = 2 + 6 * k by ring] at h
  simpa [sixVerts] using h

theorem flat_vget3 (vert : List Vec3) (tri : List Tri) (k : ℕ) (hk : k < tri.length) :
    vget (flatSix vert tri) (3 + 6 * k) =
      normalize (midpoint (vget vert (tri.getD k (0, 0, 0)).1)
        (vget vert (tri.getD k (0, 0, 0)).2.1)) := by
  have h := flatSix_getD vert tri k 3 hk (by omega)
  rw [show 6 * k + 3 = 3 + 6 * k by ring] at h
  simpa [sixVerts] using h

theorem flat_vget4 (vert : List Vec3) (tri : List Tri) (k : ℕ) (hk : k < tri.length) :
    vget (flatSix vert tri) (4 + 6 * k) =
      normalize (midpoint (vget vert (tri.getD k (0, 0, 0)).2.1)
        (vget vert (tri.getD k (0, 0, 0)).2.2)) := by
  have h := flatSix_getD vert tri k 4 hk (by omega)
  rw [show 6 * k + 4 = 4 + 6 * k by ring] at h
  simpa [sixVerts] using h

theorem flat_vget5 (vert : List Vec3) (tri : List Tri) (k : ℕ) (hk : k < tri.length) :
    vget (flatSix vert tri) (5 + 6 * k) =
      normalize (midpoint (vget vert (tri.getD k (0, 0, 0)).2.2)
        (vget vert (tri.getD k (0, 0, 0)).1)) := by
  have h := flatSix_getD vert tri k 5 hk (by omega)
  rw [show 6 * k + 5 = 5 + 6 * k by ring] at h
  simpa [sixVerts] using h

theorem mem_fourFrom_inv :
    ∀ (n c : ℕ) (s : Tri), s ∈ fourFrom c n → ∃ k < n, s ∈ fourTris (c + 6 * k) := by
  intro n
  induction n with
  | zero => intro c s hs; simp [fourFrom] at hs
  | succ m ih =>
      intro c s hs
      rw [fourFrom] at hs
      rcases List.mem_append.mp hs with h | h
      · exact ⟨0, by omega, by simpa using h⟩
      · obtain ⟨k, hk, hsk⟩ := ih (c + 6) s h
        exact ⟨k + 1, by omega, by rwa [show c + 6 * (k + 1) = c + 6 + 6 * k by ring]⟩

theorem mem_fourFrom_zero_inv (s : Tri) (n : ℕ) (hs : s ∈ fourFrom 0 n) :
    ∃ k < n, s ∈ fourTris (6 * k) := by
  obtain ⟨k, hk, hsk⟩ := mem_fourFrom_inv n 0 s hs
  exact ⟨k, hk, by simpa using hsk⟩

/-! ## Theorems: C2 — the invariant is preserved by subdivision -/

theorem base_good : goodMesh baseVertices baseTriangles := by
  intro t ht
  simp only [baseTriangles] at ht
  fin_cases ht <;>
    · simp only [goodTri, vget, baseVertices, List.getD_cons_zero, List.getD_cons_succ,
        normSq, dot, A, B]
      norm_num

theorem good_step (vert : List Vec3) (tri : List Tri) (h : goodMesh vert tri) :
    goodMesh (flatSix vert tri) (fourFrom 0 tri.length) := by
  intro s hs
  obtain ⟨k, hk, hsk⟩ := mem_fourFrom_zero_inv s tri.length hs
  have ht : tri.getD k (0, 0, 0) ∈ tri := by
    rw [List.getD_eq_getElem tri (0, 0, 0) hk]
    exact List.getElem_mem hk
  have hgt := h _ ht
  simp only [goodTri] at hgt
  set a := vget vert (tri.getD k (0, 0, 0)).1 with hadef
  set b := vget vert (tri.getD k (0, 0, 0)).2.1 with hbdef
  set c := vget vert (tri.getD k (0, 0, 0)).2.2 with hcdef
  obtain ⟨⟨hna1, hna2⟩, ⟨hnb1, hnb2⟩, ⟨hnc1, hnc2⟩, hab, hbc, hca⟩ := hgt
  have hlo : (0 : ℝ) < ((1 : ℝ) - 1e-6) ^ 2 := by norm_num
  have hna : 0 < normSq a := lt_of_lt_of_le hlo hna1
  have hnb : 0 < normSq b := lt_of_lt_of_le hlo hnb1
  have hnc : 0 < normSq c := lt_of_lt_of_le hlo hnc1
  have hba : 0 < dot b a := by rw [dot_comm]; exact hab
  have hcb : 0 < dot c b := by rw [dot_comm]; exact hbc
  have hac : 0 < dot a c := by rw [dot_comm]; exact hca
  have hdaa : 0 < dot a a := hna
  have hdbb : 0 < dot b b := hnb
  have hdcc : 0 < dot c c := hnc
  have hmab : 0 < normSq (midpoint a b) := by rw [normSq_midpoint]; nlinarith
  have hmbc : 0 < normSq (midpoint b c) := by rw [normSq_midpoint]; nlinarith
  have hmca : 0 < normSq (midpoint c a) := by rw [normSq_midpoint]; nlinarith
  have hone : ∀ m : Vec3, 0 < normSq m →
      ((1 : ℝ) - 1e-6) ^ 2 ≤ normSq (normalize m) ∧
        normSq (normalize m) ≤ ((1 : ℝ) + 1e-6) ^ 2 := by
    intro m hm
    rw [normSq_normalize m hm]
    constructor <;> norm_num
  have e0 := flat_vget0 vert tri k hk
  have e1 := flat_vget1 vert tri k hk
  have e2 := flat_vget2 vert tri k hk
  have e3 := flat_vget3 vert tri k hk
  have e4 := flat_vget4 vert tri k hk
  have e5 := flat_vget5 vert tri k hk
  rw [← hadef] at e0
  rw [← hbdef] at e1
  rw [← hcdef] at e2
  rw [← hadef, ← hbdef] at e3
  rw [← hbdef, ← hcdef] at e4
  rw [← hcdef, ← hadef] at e5
  have hskcases : s = (6 * k, 3 + 6 * k, 5 + 6 * k) ∨ s = (3 + 6 * k, 1 + 6 * k, 4 + 6 * k) ∨
      s = (4 + 6 * k, 2 + 6 * k, 5 + 6 * k) ∨ s = (3 + 6 * k, 4 + 6 * k, 5 + 6 * k) := by
    simpa [fourTris] using hsk
  rcases hskcases with rfl | rfl | rfl | rfl
  · -- corner triangle (a, m01, m20)
    simp only [goodTri]
    rw [e0, e3, e5]
    refine ⟨⟨hna1, hna2⟩, hone _ hmab, hone _ hmca, ?_, ?_, ?_⟩
    · refine dot_normalize_pos_right _ _ hmab ?_
      rw [dot_mid_right]; nlinarith
    · refine dot_normalize_pos_both _ _ hmab hmca ?_
      rw [dot_mid_left, dot_mid_right, dot_mid_right]; nlinarith
    · refine dot_normalize_pos_left _ _ hmca ?_
      rw [dot_mid_left]; nlinarith
  · -- corner triangle (m01, b, m12)
    simp only [goodTri]
    rw [e3, e1, e4]
    refine ⟨hone _ hmab, ⟨hnb1, hnb2⟩, hone _ hmbc, ?_, ?_, ?_⟩
    · refine dot_normalize_pos_left _ _ hmab ?_
      rw [dot_mid_left]; nlinarith
    · refine dot_normalize_pos_right _ _ hmbc ?_
      rw [dot_mid_right]; nlinarith
    · refine dot_normalize_pos_both _ _ hmbc hmab ?_
      rw [dot_mid_left, dot_mid_right, dot_mid_right]; nlinarith
  · -- corner triangle (m12, c, m20)
    simp only [goodTri]
    rw [e4, e2, e5]
    refine ⟨hone _ hmbc, ⟨hnc1, hnc2⟩, hone _ hmca, ?_, ?_, ?_⟩
    · refine dot_normalize_pos_left _ _ hmbc ?_
      rw [dot_mid_left]; nlinarith
    · refine dot_normalize_pos_right _ _ hmca ?_
      rw [dot_mid_right]; nlinarith
    · refine dot_normalize_pos_both _ _ hmca hmbc ?_
      rw [dot_mid_left, dot_mid_right, dot_mid_right]; nlinarith
  · -- center triangle (m01, m12, m20)
    simp only [goodTri]
    rw [e3, e4, e5]
    refine ⟨hone _ hmab, hone _ hmbc, hone _ hmca, ?_, ?_, ?_⟩
    · refine dot_normalize_pos_both _ _ hmab hmbc ?_
      rw [dot_mid_left, dot_mid_right, dot_mid_right]; nlinarith
    · refine dot_normalize_pos_both _ _ hmbc hmca ?_
      rw [dot_mid_left, dot_mid_right, dot_mid_right]; nlinarith
    · refine dot_normalize_pos_both _ _ hmca hmab ?_
      rw [dot_mid_left, dot_mid_right, dot_mid_right]; nlinarith

theorem ico_good : ∀ n, goodMesh (icoState n).1 (icoState n).2 := by
  intro n
  induction n with
  | zero => exact base_good
  | succ m ih =>
      show goodMesh (subdivide_icosphere (icoState m).1 (icoState m).2).1
        (subdivide_icosphere (icoState m).1 (icoState m).2).2
      rw [subdivide_eq]
      exact good_step _ _ ih

/-! ## Theorems: C2 — from the mesh to the flat buffer -/

theorem flatten_eq_explode (vert : List Vec3) :
    ∀ tri : List Tri, flatten vert tri = explode (corners vert tri) := by
  intro tri
  induction tri with
  | nil => rfl
  | cons t rest ih => simp [flatten, corners, explode, ih]

theorem tripleAt_explode :
    ∀ (ws : List Vec3) (i : ℕ), 3 * i + 2 < (explode ws).length →
      tripleAt (explode ws) i = ws.getD i (0, 0, 0) ∧ i < ws.length := by
  intro ws
  induction ws with
  | nil => intro i hi; simp [explode] at hi
  | cons v rest ih =>
      intro i hi
      cases i with
      | zero =>
          refine ⟨?_, by simp⟩
          show tripleAt (v.1 :: v.2.1 :: v.2.2 :: explode rest) 0 = v
          simp [tripleAt]
      | succ j =>
          have hstep : (explode (v :: rest)).length = (explode rest).length + 3 := by
            simp [explode]
          have hlen : 3 * j + 2 < (explode rest).length := by
            rw [hstep] at hi; omega
          have hrec := ih j hlen
          refine ⟨?_, by simpa using Nat.succ_lt_succ hrec.2⟩
          show tripleAt (v.1 :: v.2.1 :: v.2.2 :: explode rest) (j + 1) = rest.getD j (0, 0, 0)
          unfold tripleAt
          rw [show 3 * (j + 1) + 2 = 3 * j + 2 + 1 + 1 + 1 by ring,
            show 3 * (j + 1) + 1 = 3 * j + 1 + 1 + 1 + 1 by ring,
            show 3 * (j + 1) = 3 * j + 1 + 1 + 1 by ring]
          simp only [List.getD_cons_succ]
          exact hrec.1

theorem mem_corners (vert : List Vec3) :
    ∀ (tri : List Tri) (w : Vec3), w ∈ corners vert tri →
      ∃ t ∈ tri, w = vget vert t.1 ∨ w = vget vert t.2.1 ∨ w = vget vert t.2.2 := by
  intro tri
  induction tri with
  | nil => intro w hw; simp [corners] at hw
  | cons t rest ih =>
      intro w hw
      simp only [corners, List.cons_append, List.nil_append, List.mem_cons] at hw
      rcases hw with rfl | rfl | rfl | hw
      · exact ⟨t, List.mem_cons_self _ _, Or.inl rfl⟩
      · exact ⟨t, List.mem_cons_self _ _, Or.inr (Or.inl rfl)⟩
      · exact ⟨t, List.mem_cons_self _ _, Or.inr (Or.inr rfl)⟩
      · obtain ⟨u, hu, hwu⟩ := ih w hw
        exact ⟨u, List.mem_cons_of_mem _ hu, hwu⟩

/-- C2: every vertex (x, y, z) of the flat buffer returned by get_icosphere n
has Euclidean norm within 1e-6 of 1. -/
theorem c2_unit_norm (n i : ℕ) (h : 3 * i + 2 < (get_icosphere n).length) :
    |norm (tripleAt (get_icosphere n) i) - 1| ≤ 1e-6 := by
  have hflat : get_icosphere n = explode (corners (icoState n).1 (icoState n).2) :=
    flatten_eq_explode _ _
  rw [hflat] at h ⊢
  obtain ⟨heq, hlt⟩ := tripleAt_explode _ i h
  rw [heq]
  have hmem : (corners (icoState n).1 (icoState n).2).getD i (0, 0, 0) ∈
      corners (icoState n).1 (icoState n).2 := by
    rw [List.getD_eq_getElem _ _ hlt]
    exact List.getElem_mem hlt
  obtain ⟨t, ht, hw⟩ := mem_corners _ _ _ hmem
  have hgt := ico_good n t ht
  simp only [goodTri] at hgt
  obtain ⟨⟨h1, h2⟩, ⟨h3, h4⟩, ⟨h5, h6⟩, -, -, -⟩ := hgt
  rcases hw with hw | hw | hw <;> rw [hw]
  · exact norm_band _ h1 h2
  · exact norm_band _ h3 h4
  · exact norm_band _ h5 h6

/-- Witness for C2 at iteration 0, vertex 0. -/
theorem c2_unit_norm_witness :
    3 * 0 + 2 < (get_icosphere 0).length ∧
    |norm (tripleAt (get_icosphere 0) 0) - 1| ≤ 1e-6 := by
  have h : 3 * 0 + 2 < (get_icosphere 0).length := by
    rw [length_get_icosphere]; norm_num
  exact ⟨h, c2_unit_norm 0 0 h⟩

/-! ## Theorems: C3 (stage handles on error paths of new_from_sources) -/

/-- C3 evidence: when the vertex stage compiles (handle 0) and the fragment
stage fails to compile (handle 1), new_from_sources propagates the compile
error with NO shader handle deleted: the already-acquired vertex stage handle
leaks, contradicting the claim that every already-acquired stage handle is
released before the error propagates.  By contrast, once both stages compile,
both stage handles are dropped regardless of link success or failure (that
part of the claim holds). -/
theorem c3_stage_release :
    ((new_from_sources true false true glInit).1.createdShaders = [0, 1] ∧
      (new_from_sources true false true glInit).1.deletedShaders = [] ∧
      (new_from_sources true false true glInit).2 = Except.error GlError.compilation) ∧
    (∀ linkOk : Bool,
      (new_from_sources true true linkOk glInit).1.deletedShaders = [0, 1]) := by
  refine ⟨⟨rfl, rfl, rfl⟩, ?_⟩
  intro linkOk
  cases linkOk <;> rfl

/-! ## Theorems: C8 (buffer element-count tracking) -/

theorem foldl_set_data_sync :
    ∀ (ds : List (List ℝ)) (b : BufferSt), b.len = b.gpuData.length →
      (ds.foldl set_data b).len = (ds.foldl set_data b).gpuData.length := by
  intro ds
  induction ds with
  | nil => intro b hb; exact hb
  | cons d rest ih => intro b hb; exact ih (set_data b d) rfl

theorem foldl_set_data_len :
    ∀ (ds : List (List ℝ)) (b : BufferSt),
      (ds.foldl set_data b).len = (ds.getLast?).elim b.len List.length := by
  intro ds
  induction ds with
  | nil => intro b; rfl
  | cons d rest ih =>
      intro b
      cases rest with
      | nil => rfl
      | cons e t =>
          rw [List.foldl_cons, ih (set_data b d), List.getLast?_cons_cons]
          cases h : (e :: t).getLast? with
          | none => simp at h
          | some z => rfl

/-- C8: the buffer wrapper's tracked element count always equals the number of
floats in the most recent upload (0 for a fresh buffer with no upload), it
always equals the length of the GL-side store, and every draw call derives its
vertex count as that tracked count divided by 3 (Globe's draw, Points' draw
with and without re-upload); in particular Globe's initial
get_icosphere(4) upload yields a draw count of 15360 vertices. -/
theorem c8_buffer_count_invariant :
    buffer_new.len = 0 ∧
    (∀ (b : BufferSt) (d : List ℝ), (set_data b d).len = d.length) ∧
    (∀ (ds : List (List ℝ)),
      ((ds.foldl set_data buffer_new).len = (ds.getLast?).elim 0 List.length ∧
        (ds.foldl set_data buffer_new).len = (ds.foldl set_data buffer_new).gpuData.length)) ∧
    (∀ b : BufferSt, globe_draw_count b = b.len / 3) ∧
    (∀ b : BufferSt, (points_draw b none).2 = b.len / 3) ∧
    (∀ (b : BufferSt) (d : List ℝ),
      (points_draw b (some d)).2 = (points_draw b (some d)).1.len / 3 ∧
        (points_draw b (some d)).1.len = d.length) ∧
    globe_draw_count globe_init_buffer = 15360 := by
  refine ⟨rfl, fun b d => rfl, ?_, fun b => rfl, fun b => rfl, fun b d => ⟨rfl, rfl⟩, ?_⟩
  · intro ds
    exact ⟨foldl_set_data_len ds buffer_new, foldl_set_data_sync ds buffer_new rfl⟩
  · have h1 : ∀ b : BufferSt, globe_draw_count b = b.len / 3 := fun b => rfl
    have h2 : ∀ (b : BufferSt) (d : List ℝ), (set_data b d).len = d.length := fun b d => rfl
    rw [h1, show globe_init_buffer = set_data buffer_new (get_icosphere 4) from rfl, h2,
      length_get_icosphere]
    norm_num

/-! ## Theorems: C6 (rotation from identity equals the closed form) -/

theorem matInverse_one : matInverse (1 : Mat4) = 1 := by
  unfold matInverse; exact inv_one

theorem transformVector3_one_x :
    transformVector3 (1 : Mat4) ((1 : ℝ), (0 : ℝ), (0 : ℝ)) = ((1 : ℝ), (0 : ℝ), (0 : ℝ)) := by
  simp [transformVector3, Matrix.one_apply]

theorem transformVector3_one_y :
    transformVector3 (1 : Mat4) ((0 : ℝ), (1 : ℝ), (0 : ℝ)) = ((0 : ℝ), (1 : ℝ), (0 : ℝ)) := by
  simp [transformVector3, Matrix.one_apply]

theorem fromQuat_xaxis (t : ℝ) :
    fromQuat (fromAxisAngle ((1 : ℝ), (0 : ℝ), (0 : ℝ)) t) = rotX t := by
  have hs := Real.sin_sq_add_cos_sq (t * 0.5)
  have hcos : 1 - 2 * Real.sin (t * 0.5) ^ 2 = Real.cos t := by
    have h := Real.cos_two_mul (t * 0.5)
    rw [show 2 * (t * 0.5) = t by ring] at h
    nlinarith [hs]
  have hsin : 2 * (Real.sin (t * 0.5) * Real.cos (t * 0.5)) = Real.sin t := by
    have h := Real.sin_two_mul (t * 0.5)
    rw [show 2 * (t * 0.5) = t by ring] at h
    linarith
  ext i j
  fin_cases i <;> fin_cases j <;>
    simp [fromQuat, fromAxisAngle, rotX, Matrix.cons_val_zero, Matrix.cons_val_one,
      Matrix.head_cons, Matrix.cons_val_two, Matrix.cons_val_three] <;>
    nlinarith [hs, hcos, hsin]

theorem fromQuat_yaxis (t : ℝ) :
    fromQuat (fromAxisAngle ((0 : ℝ), (1 : ℝ), (0 : ℝ)) t) = rotY t := by
  have hs := Real.sin_sq_add_cos_sq (t * 0.5)
  have hcos : 1 - 2 * Real.sin (t * 0.5) ^ 2 = Real.cos t := by
    have h := Real.cos_two_mul (t * 0.5)
    rw [show 2 * (t * 0.5) = t by ring] at h
    nlinarith [hs]
  have hsin : 2 * (Real.sin (t * 0.5) * Real.cos (t * 0.5)) = Real.sin t := by
    have h := Real.sin_two_mul (t * 0.5)
    rw [show 2 * (t * 0.5) = t by ring] at h
    linarith
  ext i j
  fin_cases i <;> fin_cases j <;>
    simp [fromQuat, fromAxisAngle, rotY, Matrix.cons_val_zero, Matrix.cons_val_one,
      Matrix.head_cons, Matrix.cons_val_two, Matrix.cons_val_three] <;>
    nlinarith [hs, hcos, hsin]

/-- C6: applied to the identity matrix, rotate_from_mouse equals the
closed-form product Rx(dy·k) · Ry(dx·k) with rotation speed k = 0.05 exactly
(starting from identity, the inverse-transformed rotation axes degenerate to
the world X and Y axes), hence every matrix element agrees within 1e-6. -/
theorem c6_rotate_from_identity (dx dy : ℝ) :
    rotate_from_mouse 1 dx dy = rotX (dy * ROT_SPEED) * rotY (dx * ROT_SPEED) ∧
    ROT_SPEED = 0.05 ∧
    ∀ i j : Fin 4,
      |rotate_from_mouse 1 dx dy i j -
        (rotX (dy * ROT_SPEED) * rotY (dx * ROT_SPEED)) i j| ≤ 1e-6 := by
  have heq : rotate_from_mouse 1 dx dy = rotX (dy * ROT_SPEED) * rotY (dx * ROT_SPEED) := by
    simp only [rotate_from_mouse]
    rw [matInverse_one, transformVector3_one_x, transformVector3_one_y,
      fromQuat_xaxis, fromQuat_yaxis, one_mul]
  refine ⟨heq, rfl, ?_⟩
  intro i j
  rw [heq, sub_self, abs_zero]
  norm_num

/-! ## Theorems: C9 (the three matrices are mutated independently) -/

/-- C9: the scroll handler updates only the view matrix (model, projection and
the pointer state are untouched); the pointer-move handler never touches the
view or projection matrices; and over every event sequence from the initial
state the projection matrix keeps its initialization value. -/
theorem c9_matrix_independence :
    (∀ (s : VisState) (d : ℝ),
      (mouse_wheel s d).view = zoom_from_scroll s.view d ∧
      (mouse_wheel s d).model = s.model ∧
      (mouse_wheel s d).proj = s.proj ∧
      (mouse_wheel s d).x = s.x ∧
      (mouse_wheel s d).y = s.y ∧
      (mouse_wheel s d).dragging = s.dragging) ∧
    (∀ (s : VisState) (x y : ℝ),
      (mouse_move s x y).view = s.view ∧ (mouse_move s x y).proj = s.proj) ∧
    (∀ (aspect : ℝ) (evs : List Ev),
      (run (initState aspect) evs).proj = (initState aspect).proj) := by
  have hmove : ∀ (s : VisState) (x y : ℝ),
      (mouse_move s x y).view = s.view ∧ (mouse_move s x y).proj = s.proj := by
    intro s x y
    unfold mouse_move
    by_cases h : s.dragging <;> simp [h]
  refine ⟨fun s d => ⟨rfl, rfl, rfl, rfl, rfl, rfl⟩, hmove, ?_⟩
  intro aspect evs
  suffices h : ∀ (s : VisState) (evs : List Ev), (run s evs).proj = s.proj from h _ _
  intro s evs
  induction evs generalizing s with
  | nil => rfl
  | cons e rest ih =>
      rw [show run s (e :: rest) = run (step s e) rest from rfl, ih]
      cases e with
      | move x y => exact (hmove s x y).2
      | button b p => cases b <;> rfl
      | wheel d => rfl

/-! ## Theorems: C7 — rigidity of the rotation matrices -/

theorem quat_unit_of_axis (a : Vec3) (t : ℝ) (ha : normSq a = 1) :
    (fromAxisAngle a t).x ^ 2 + (fromAxisAngle a t).y ^ 2 + (fromAxisAngle a t).z ^ 2 +
      (fromAxisAngle a t).w ^ 2 = 1 := by
  have ha' : a.1 * a.1 + a.2.1 * a.2.1 + a.2.2 * a.2.2 = 1 := ha
  have hsc := Real.sin_sq_add_cos_sq (t * 0.5)
  simp only [fromAxisAngle]
  nlinarith [ha', hsc]

theorem isRigid_one : IsRigid 1 := by
  refine ⟨by rw [Matrix.transpose_one, mul_one], ?_, ?_, ?_, ?_, ?_, ?_, ?_⟩ <;>
    simp [Matrix.one_apply]

theorem isRigid_mul (A B : Mat4) (hA : IsRigid A) (hB : IsRigid B) : IsRigid (A * B) := by
  obtain ⟨hA1, hA30, hA31, hA32, hA33, hA03, hA13, hA23⟩ := hA
  obtain ⟨hB1, hB30, hB31, hB32, hB33, hB03, hB13, hB23⟩ := hB
  refine ⟨?_, ?_, ?_, ?_, ?_, ?_, ?_, ?_⟩
  · rw [Matrix.transpose_mul]
    calc A * B * (B.transpose * A.transpose)
        = A * (B * B.transpose) * A.transpose := by
          rw [Matrix.mul_assoc, Matrix.mul_assoc, Matrix.mul_assoc]
      _ = A * A.transpose := by rw [hB1, mul_one]
      _ = 1 := hA1
  all_goals
    simp [Matrix.mul_apply, Fin.sum_univ_four, hA30, hA31, hA32, hA33, hA03, hA13, hA23,
      hB30, hB31, hB32, hB33, hB03, hB13, hB23]

theorem transpose_fromQuat (q : Quat) :
    (fromQuat q).transpose = fromQuat ⟨-q.x, -q.y, -q.z, q.w⟩ := by
  ext i j
  fin_cases i <;> fin_cases j <;>
    simp [fromQuat, Matrix.transpose_apply, Matrix.cons_val_two, Matrix.cons_val_three] <;>
    ring

theorem isRigid_fromQuat (q : Quat)
    (h : q.x ^ 2 + q.y ^ 2 + q.z ^ 2 + q.w ^ 2 = 1) : IsRigid (fromQuat q) := by
  refine ⟨?_, ?_, ?_, ?_, ?_, ?_, ?_, ?_⟩
  · rw [transpose_fromQuat]
    ext i j
    fin_cases i <;> fin_cases j <;>
      simp [fromQuat, Matrix.mul_apply, Fin.sum_univ_four, Matrix.one_apply,
        Matrix.cons_val_two, Matrix.cons_val_three]
    · linear_combination (4 * (q.y ^ 2 + q.z ^ 2)) * h
    · linear_combination (-(4 * q.x * q.y)) * h
    · linear_combination (-(4 * q.x * q.z)) * h
    · linear_combination (-(4 * q.x * q.y)) * h
    · linear_combination (4 * (q.x ^ 2 + q.z ^ 2)) * h
    · linear_combination (-(4 * q.y * q.z)) * h
    · linear_combination (-(4 * q.x * q.z)) * h
    · linear_combination (-(4 * q.y * q.z)) * h
    · linear_combination (4 * (q.x ^ 2 + q.y ^ 2)) * h
  all_goals simp [fromQuat, Matrix.cons_val_two, Matrix.cons_val_three]

/-! ## Theorems: C7 — axes extracted from a rigid matrix -/

theorem rigid_inverse (m : Mat4) (hm : IsRigid m) : matInverse m = m.transpose := by
  unfold matInverse
  exact Matrix.inv_eq_right_inv hm.1

theorem rigid_axis_x (m : Mat4) (hm : IsRigid m) :
    transformVector3 (matInverse m) ((1 : ℝ), (0 : ℝ), (0 : ℝ)) = (m 0 0, m 0 1, m 0 2) := by
  rw [rigid_inverse m hm]
  simp [transformVector3, Matrix.transpose_apply]

theorem rigid_axis_y (m : Mat4) (hm : IsRigid m) :
    transformVector3 (matInverse m) ((0 : ℝ), (1 : ℝ), (0 : ℝ)) = (m 1 0, m 1 1, m 1 2) := by
  rw [rigid_inverse m hm]
  simp [transformVector3, Matrix.transpose_apply]

theorem rigid_row0_unit (m : Mat4) (hm : IsRigid m) : normSq (m 0 0, m 0 1, m 0 2) = 1 := by
  have h00 := congrFun (congrFun hm.1 0) 0
  have h03 : m 0 3 = 0 := hm.2.2.2.2.2.1
  simp [Matrix.mul_apply, Fin.sum_univ_four, Matrix.transpose_apply, Matrix.one_apply,
    h03] at h00
  show m 0 0 * m 0 0 + m 0 1 * m 0 1 + m 0 2 * m 0 2 = 1
  linarith [h00]

theorem rigid_row1_unit (m : Mat4) (hm : IsRigid m) : normSq (m 1 0, m 1 1, m 1 2) = 1 := by
  have h11 := congrFun (congrFun hm.1 1) 1
  have h13 : m 1 3 = 0 := hm.2.2.2.2.2.2.1
  simp [Matrix.mul_apply, Fin.sum_univ_four, Matrix.transpose_apply, Matrix.one_apply,
    h13] at h11
  show m 1 0 * m 1 0 + m 1 1 * m 1 1 + m 1 2 * m 1 2 = 1
  linarith [h11]

theorem rigid_rows_orth (m : Mat4) (hm : IsRigid m) :
    dot (m 0 0, m 0 1, m 0 2) (m 1 0, m 1 1, m 1 2) = 0 := by
  have h01 := congrFun (congrFun hm.1 0) 1
  have h03 : m 0 3 = 0 := hm.2.2.2.2.2.1
  simp [Matrix.mul_apply, Fin.sum_univ_four, Matrix.transpose_apply, Matrix.one_apply,
    h03] at h01
  show m 0 0 * m 1 0 + m 0 1 * m 1 1 + m 0 2 * m 1 2 = 0
  linarith [h01]

/-! ## Theorems: C7 — a rotation pair multiplying to the identity forces
    both half-angle sines to vanish -/

theorem transformVector3_fix (q : Quat) :
    transformVector3 (fromQuat q) (q.x, q.y, q.z) = (q.x, q.y, q.z) := by
  simp [transformVector3, fromQuat, Matrix.cons_val_two, Matrix.cons_val_three,
    Prod.mk.injEq]
  exact ⟨by ring, by ring, by ring⟩

theorem transformVector3_scale (m : Mat4) (c : ℝ) (v : Vec3) :
    transformVector3 m (v.1 * c, v.2.1 * c, v.2.2 * c) =
      ((transformVector3 m v).1 * c, (transformVector3 m v).2.1 * c,
        (transformVector3 m v).2.2 * c) := by
  simp [transformVector3, Prod.mk.injEq]
  exact ⟨by ring, by ring, by ring⟩

theorem transformVector3_one (v : Vec3) : transformVector3 1 v = v := by
  simp [transformVector3, Matrix.one_apply]

theorem transformVector3_mul (A B : Mat4) (hb0 : B 3 0 = 0) (hb1 : B 3 1 = 0)
    (hb2 : B 3 2 = 0) (v : Vec3) :
    transformVector3 (A * B) v = transformVector3 A (transformVector3 B v) := by
  simp only [transformVector3, Matrix.mul_apply, Fin.sum_univ_four, hb0, hb1, hb2,
    Prod.mk.injEq]
  exact ⟨by ring, by ring, by ring⟩

theorem fromQuat_row3 (q : Quat) :
    fromQuat q 3 0 = 0 ∧ fromQuat q 3 1 = 0 ∧ fromQuat q 3 2 = 0 := by
  refine ⟨?_, ?_, ?_⟩ <;> simp [fromQuat, Matrix.cons_val_two, Matrix.cons_val_three]

theorem quadform_axis (a b : Vec3) (t : ℝ) :
    dot (transformVector3 (fromQuat (fromAxisAngle a t)) b) b =
      normSq b - 2 * Real.sin (t * 0.5) ^ 2 * (normSq a * normSq b - dot a b ^ 2) := by
  simp [transformVector3, fromQuat, fromAxisAngle, dot, normSq,
    Matrix.cons_val_two, Matrix.cons_val_three]
  ring

theorem fromQuat_eq_one_of_sin_zero (a : Vec3) (t : ℝ) (hs : Real.sin (t * 0.5) = 0) :
    fromQuat (fromAxisAngle a t) = 1 := by
  ext i j
  fin_cases i <;> fin_cases j <;>
    simp [fromQuat, fromAxisAngle, hs, Matrix.one_apply,
      Matrix.cons_val_two, Matrix.cons_val_three, Matrix.vecHead, Matrix.vecTail]

theorem fromQuat_axis_sin_zero (a : Vec3) (t : ℝ) (ha : normSq a = 1)
    (h : fromQuat (fromAxisAngle a t) = 1) : Real.sin (t * 0.5) = 0 := by
  have e11 := congrFun (congrFun h 1) 1
  have e22 := congrFun (congrFun h 2) 2
  have e00 := congrFun (congrFun h 0) 0
  simp [fromQuat, fromAxisAngle, Matrix.one_apply,
    Matrix.cons_val_two, Matrix.cons_val_three] at e00 e11 e22
  have ha' : a.1 * a.1 + a.2.1 * a.2.1 + a.2.2 * a.2.2 = 1 := ha
  have hmul : (a.1 * a.1 + a.2.1 * a.2.1 + a.2.2 * a.2.2) * Real.sin (t * 0.5) ^ 2 =
      Real.sin (t * 0.5) ^ 2 := by rw [ha']; ring
  have hsq : Real.sin (t * 0.5) ^ 2 = 0 := by nlinarith [e00, e11, e22, hmul]
  exact (pow_eq_zero_iff two_ne_zero).mp hsq

theorem rot_pair_sin_zero (a1 a2 : Vec3) (t1 t2 : ℝ)
    (h1 : normSq a1 = 1) (h2 : normSq a2 = 1) (ho : dot a1 a2 = 0)
    (hprod : fromQuat (fromAxisAngle a1 t1) * fromQuat (fromAxisAngle a2 t2) = 1) :
    Real.sin (t1 * 0.5) = 0 ∧ Real.sin (t2 * 0.5) = 0 := by
  by_cases hs2 : Real.sin (t2 * 0.5) = 0
  · have hM2 : fromQuat (fromAxisAngle a2 t2) = 1 := fromQuat_eq_one_of_sin_zero a2 t2 hs2
    rw [hM2, mul_one] at hprod
    exact ⟨fromQuat_axis_sin_zero a1 t1 h1 hprod, hs2⟩
  · exfalso
    have hfixs := transformVector3_fix (fromAxisAngle a2 t2)
    have hscale := transformVector3_scale (fromQuat (fromAxisAngle a2 t2))
      (Real.sin (t2 * 0.5)) a2
    rw [show ((fromAxisAngle a2 t2).x, (fromAxisAngle a2 t2).y, (fromAxisAngle a2 t2).z) =
      (a2.1 * Real.sin (t2 * 0.5), a2.2.1 * Real.sin (t2 * 0.5),
        a2.2.2 * Real.sin (t2 * 0.5)) from rfl] at hfixs
    rw [hscale] at hfixs
    simp only [Prod.mk.injEq] at hfixs
    have hfix : transformVector3 (fromQuat (fromAxisAngle a2 t2)) a2 = a2 := by
      rw [Prod.ext_iff, Prod.ext_iff]
      exact ⟨mul_right_cancel₀ hs2 hfixs.1,
        mul_right_cancel₀ hs2 hfixs.2.1, mul_right_cancel₀ hs2 hfixs.2.2⟩
    have hTprod := transformVector3_mul (fromQuat (fromAxisAngle a1 t1))
      (fromQuat (fromAxisAngle a2 t2)) (fromQuat_row3 _).1 (fromQuat_row3 _).2.1
      (fromQuat_row3 _).2.2 a2
    rw [hprod, transformVector3_one, hfix] at hTprod
    have hfix1 : transformVector3 (fromQuat (fromAxisAngle a1 t1)) a2 = a2 := hTprod.symm
    have hq := quadform_axis a1 a2 t1
    rw [hfix1, show dot a2 a2 = normSq a2 from rfl, h1, h2, ho] at hq
    have hsq : Real.sin (t1 * 0.5) ^ 2 = 0 := by nlinarith [hq]
    have hs1 : Real.sin (t1 * 0.5) = 0 := (pow_eq_zero_iff two_ne_zero).mp hsq
    have hM1 : fromQuat (fromAxisAngle a1 t1) = 1 := fromQuat_eq_one_of_sin_zero a1 t1 hs1
    rw [hM1, one_mul] at hprod
    exact hs2 (fromQuat_axis_sin_zero a2 t2 h2 hprod)

/-! ## Theorems: C7 — the controller's drag gating -/

theorem rotate_rigid (m : Mat4) (hm : IsRigid m) (dx dy : ℝ) :
    IsRigid (rotate_from_mouse m dx dy) := by
  simp only [rotate_from_mouse]
  rw [rigid_axis_x m hm, rigid_axis_y m hm]
  exact isRigid_mul _ _ hm (isRigid_mul _ _
    (isRigid_fromQuat _ (quat_unit_of_axis _ _ (rigid_row0_unit m hm)))
    (isRigid_fromQuat _ (quat_unit_of_axis _ _ (rigid_row1_unit m hm))))

theorem step_model_rigid (s : VisState) (e : Ev) (h : IsRigid s.model) :
    IsRigid (step s e).model := by
  cases e with
  | move x y =>
      show IsRigid (mouse_move s x y).model
      unfold mouse_move
      by_cases hd : s.dragging = true
      · simp only [hd, if_true]
        exact rotate_rigid _ h _ _
      · simp only [hd, if_false]
        exact h
  | button b p => cases b <;> exact h
  | wheel d => exact h

theorem run_model_rigid (aspect : ℝ) (evs : List Ev) :
    IsRigid (run (initState aspect) evs).model := by
  suffices h : ∀ (s : VisState) (evs : List Ev),
      IsRigid s.model → IsRigid (run s evs).model by
    exact h _ _ isRigid_one
  intro s evs
  induction evs generalizing s with
  | nil => exact id
  | cons e rest ih =>
      intro hs
      exact ih (step s e) (step_model_rigid s e hs)

theorem rotate_changes (m : Mat4) (hm : IsRigid m) (dx dy : ℝ)
    (hne : ¬(dx = 0 ∧ dy = 0))
    (hbx : |dx * ROT_SPEED| < 2 * Real.pi) (hby : |dy * ROT_SPEED| < 2 * Real.pi) :
    rotate_from_mouse m dx dy ≠ m := by
  intro heq
  simp only [rotate_from_mouse] at heq
  rw [rigid_axis_x m hm, rigid_axis_y m hm] at heq
  have hmtm : m.transpose * m = 1 := Matrix.mul_eq_one_comm.mp hm.1
  have hpair : fromQuat (fromAxisAngle (m 0 0, m 0 1, m 0 2) (dy * ROT_SPEED)) *
      fromQuat (fromAxisAngle (m 1 0, m 1 1, m 1 2) (dx * ROT_SPEED)) = 1 := by
    calc fromQuat (fromAxisAngle (m 0 0, m 0 1, m 0 2) (dy * ROT_SPEED)) *
          fromQuat (fromAxisAngle (m 1 0, m 1 1, m 1 2) (dx * ROT_SPEED))
        = (m.transpose * m) *
            (fromQuat (fromAxisAngle (m 0 0, m 0 1, m 0 2) (dy * ROT_SPEED)) *
              fromQuat (fromAxisAngle (m 1 0, m 1 1, m 1 2) (dx * ROT_SPEED))) := by
          rw [hmtm, one_mul]
      _ = m.transpose *
            (m * (fromQuat (fromAxisAngle (m 0 0, m 0 1, m 0 2) (dy * ROT_SPEED)) *
              fromQuat (fromAxisAngle (m 1 0, m 1 1, m 1 2) (dx * ROT_SPEED)))) := by
          rw [Matrix.mul_assoc]
      _ = m.transpose * m := by rw [heq]
      _ = 1 := hmtm
  obtain ⟨hs1, hs2⟩ := rot_pair_sin_zero _ _ _ _ (rigid_row0_unit m hm)
    (rigid_row1_unit m hm) (rigid_rows_orth m hm) hpair
  have hy : dy * ROT_SPEED = 0 := by
    rw [abs_lt] at hby
    have hb1 : -Real.pi < dy * ROT_SPEED * 0.5 := by nlinarith [hby.1, Real.pi_pos]
    have hb2 : dy * ROT_SPEED * 0.5 < Real.pi := by nlinarith [hby.2, Real.pi_pos]
    have h0 := (Real.sin_eq_zero_iff_of_lt_of_lt hb1 hb2).mp hs1
    linarith
  have hx : dx * ROT_SPEED = 0 := by
    rw [abs_lt] at hbx
    have hb1 : -Real.pi < dx * ROT_SPEED * 0.5 := by nlinarith [hbx.1, Real.pi_pos]
    have hb2 : dx * ROT_SPEED * 0.5 < Real.pi := by nlinarith [hbx.2, Real.pi_pos]
    have h0 := (Real.sin_eq_zero_iff_of_lt_of_lt hb1 hb2).mp hs2
    linarith
  have hk : ROT_SPEED ≠ 0 := by norm_num [ROT_SPEED]
  apply hne
  exact ⟨(mul_eq_zero.mp hx).resolve_right hk, (mul_eq_zero.mp hy).resolve_right hk⟩

theorem runMoves_nodrag :
    ∀ (ms : List (ℝ × ℝ)) (u : VisState), u.dragging = false →
      (runMoves u ms).model = u.model ∧ (runMoves u ms).dragging = false := by
  intro ms
  induction ms with
  | nil => intro u hu; exact ⟨rfl, hu⟩
  | cons p rest ih =>
      intro u hu
      have hstep : (mouse_move u p.1 p.2).model = u.model ∧
          (mouse_move u p.1 p.2).dragging = false := by
        unfold mouse_move
        simp [hu]
      have hrest := ih (mouse_move u p.1 p.2) hstep.2
      constructor
      · rw [show runMoves u (p :: rest) = runMoves (mouse_move u p.1 p.2) rest from rfl,
          hrest.1, hstep.1]
      · rw [show runMoves u (p :: rest) = runMoves (mouse_move u p.1 p.2) rest from rfl]
        exact hrest.2

/-- C7: in every event sequence from the initial state — s being the state
reached so far — a pointer-move always records the new position (x, y) and
leaves the drag flag alone; with the drag flag clear it leaves the model
matrix untouched; with the drag flag set it applies rotate_from_mouse with
the deltas from the stored position, and if the delta is nonzero (with the
resulting rotation angles below a full turn, as any physical drag is) the
model matrix really changes — consecutive moves included, since this holds at
every reachable s; and after the primary button is released, no sequence of
pointer-moves changes the model matrix. -/
theorem c7_drag_gating (aspect : ℝ) (evs : List Ev) (x y : ℝ) :
    let s := run (initState aspect) evs
    (mouse_move s x y).x = x ∧
    (mouse_move s x y).y = y ∧
    (mouse_move s x y).dragging = s.dragging ∧
    (s.dragging = false → (mouse_move s x y).model = s.model) ∧
    (s.dragging = true →
      (mouse_move s x y).model = rotate_from_mouse s.model (x - s.x) (y - s.y)) ∧
    (s.dragging = true → ¬(x - s.x = 0 ∧ y - s.y = 0) →
      |(x - s.x) * ROT_SPEED| < 2 * Real.pi →
      |(y - s.y) * ROT_SPEED| < 2 * Real.pi →
      (mouse_move s x y).model ≠ s.model) ∧
    (∀ ms : List (ℝ × ℝ),
      (runMoves (mouse_input s MouseButton.left false) ms).model = s.model) := by
  intro s
  have hpos : (mouse_move s x y).x = x ∧ (mouse_move s x y).y = y ∧
      (mouse_move s x y).dragging = s.dragging := by
    unfold mouse_move
    by_cases hd : s.dragging = true <;> simp [hd]
  refine ⟨hpos.1, hpos.2.1, hpos.2.2, ?_, ?_, ?_, ?_⟩
  · intro hd
    unfold mouse_move
    simp [hd]
  · intro hd
    unfold mouse_move
    simp [hd]
  · intro hd hne hbx hby heq
    have hmodel : (mouse_move s x y).model = rotate_from_mouse s.model (x - s.x) (y - s.y) := by
      unfold mouse_move
      simp [hd]
    rw [hmodel] at heq
    exact rotate_changes s.model (run_model_rigid aspect evs) _ _ hne hbx hby heq
  · intro ms
    have hrel : (mouse_input s MouseButton.left false).dragging = false := rfl
    rw [(runMoves_nodrag ms _ hrel).1]
    rfl

/-- Witness for C7: after a press at (0, 0), the move to (10, 5) changes the
model matrix and records the position; from the initial (non-dragging) state
a move leaves the model untouched; after release, further moves leave the
model unchanged. -/
theorem c7_drag_gating_witness :
    (mouse_move (run (initState 1) [Ev.button MouseButton.left true]) 10 5).model ≠
      (run (initState 1) [Ev.button MouseButton.left true]).model ∧
    (mouse_move (run (initState 1) [Ev.button MouseButton.left true]) 10 5).x = 10 ∧
    (mouse_move (run (initState 1) []) 10 5).model = (run (initState 1) []).model ∧
    (runMoves (mouse_input (run (initState 1) [Ev.button MouseButton.left true])
        MouseButton.left false) [(20, 10)]).model =
      (run (initState 1) [Ev.button MouseButton.left true]).model := by
  have hx0 : (run (initState 1) [Ev.button MouseButton.left true]).x = 0 := rfl
  have hy0 : (run (initState 1) [Ev.button MouseButton.left true]).y = 0 := rfl
  have hdrag : (run (initState 1) [Ev.button MouseButton.left true]).dragging = true := rfl
  have habs : |(0.5 : ℝ)| < 2 * Real.pi := by
    rw [abs_of_nonneg (by norm_num)]
    nlinarith [Real.pi_gt_three]
  have hne : ¬((10 : ℝ) - (run (initState 1) [Ev.button MouseButton.left true]).x = 0 ∧
      (5 : ℝ) - (run (initState 1) [Ev.button MouseButton.left true]).y = 0) := by
    rw [hx0, hy0]
    norm_num
  have hbx : |((10 : ℝ) - (run (initState 1) [Ev.button MouseButton.left true]).x) *
      ROT_SPEED| < 2 * Real.pi := by
    rw [hx0, show ((10 : ℝ) - 0) * ROT_SPEED = 0.5 by norm_num [ROT_SPEED]]
    exact habs
  have hby : |((5 : ℝ) - (run (initState 1) [Ev.button MouseButton.left true]).y) *
      ROT_SPEED| < 2 * Real.pi := by
    rw [hy0, show ((5 : ℝ) - 0) * ROT_SPEED = 0.25 by norm_num [ROT_SPEED]]
    rw [abs_of_nonneg (by norm_num)]
    nlinarith [Real.pi_gt_three]
  refine ⟨?_, ?_, ?_, ?_⟩
  · exact (c7_drag_gating 1 [Ev.button MouseButton.left true] 10 5).2.2.2.2.2.1
      hdrag hne hbx hby
  · exact (c7_drag_gating 1 [Ev.button MouseButton.left true] 10 5).1
  · exact (c7_drag_gating 1 [] 10 5).2.2.2.1 rfl
  · exact (c7_drag_gating 1 [Ev.button MouseButton.left true] 10 5).2.2.2.2.2.2 [(20, 10)]

end GlobeVis
